import Mathlib

/-
Verification of the server-wrapper change-detection cache, its update and
eviction protocol, the archive extractor, and destination synchronisation.

The Rust source is embedded shallowly:
  * `Token`, `IndexEntry`, `Reference`, `Entry`, `EntryUpdater`, `UpdateResult`
    mirror the types in `src/cache.rs`;
  * the `Loader`'s `HashMap<String, IndexEntry>` becomes an association list
    `List (String × IndexEntry)` and its `HashSet<String>` of used keys a
    `List String`;
  * the async filesystem becomes an explicit association list `FS` from paths
    to byte lists, threaded through every operation that performs I/O; a
    fallible write is modelled by an explicit `writeOk : Bool` outcome;
  * functions returning `io::Result` become `Option`-valued (with `none` for
    the error/panic case) or return their post-state alongside an
    `Option Reference`.
-/

/-- Bytes of a file, modelled as a list of byte values. -/
abbrev Bytes := List Nat

/-- A filesystem fragment: full path to file contents. -/
abbrev FS := List (String × Bytes)

/-- Read a file: the first association for the path, if any. -/
def fsLookup (fs : FS) (p : String) : Option Bytes :=
  (fs.find? (fun q => q.1 == p)).map (fun q => q.2)

/-- Full overwrite of a file (the effect of `fs::write`). -/
def fsWrite (fs : FS) (p : String) (b : Bytes) : FS :=
  (p, b) :: fs.filter (fun q => !(q.1 == p))

/-- Delete a file (the effect of `fs::remove_file`). -/
def fsRemove (fs : FS) (p : String) : FS :=
  fs.filter (fun q => !(q.1 == p))

/-- The `Token` enum of `src/cache.rs`: content-identity values. -/
inductive Token where
  | etag (s : String)
  | artifactId (id : Nat)
  | sha1 (digest : Bytes)
  | sha512 (s : String)
  | unknown
deriving DecidableEq, Repr

/-- The `impl PartialEq for Token` of `src/cache.rs`: equality only within a
variant with equal payloads; any pair involving `unknown` (and every
cross-variant pair) falls to the catch-all arm and is unequal. -/
def Token.eq : Token → Token → Bool
  | .etag l, .etag r => l == r
  | .artifactId l, .artifactId r => l == r
  | .sha1 l, .sha1 r => l == r
  | .sha512 l, .sha512 r => l == r
  | _, _ => false

/-- The `IndexEntry` struct of `src/cache.rs`. -/
structure IndexEntry where
  key : String
  token : Token
  file_name : String
deriving DecidableEq, Repr

/-- The `Reference` struct of `src/cache.rs`: path to the cached blob, the
logical output name, and whether this run changed it. -/
structure Reference where
  path : String
  name : String
  changed : Bool
deriving DecidableEq, Repr

/-- The `Loader` struct of `src/cache.rs`; the `HashMap` of entries is an
association list and the `HashSet` of used keys a list. -/
structure Loader where
  root : String
  entries : List (String × IndexEntry)
  used_entries : List String
deriving DecidableEq, Repr

/-- Lookup in the entries map (`self.entries.get(&key)`). -/
def lookupEntry (es : List (String × IndexEntry)) (key : String) : Option IndexEntry :=
  (es.find? (fun p => p.1 == key)).map (fun p => p.2)

/-- `HashMap::remove` on the association-list map: drop the binding for `key`. -/
def eraseEntry (es : List (String × IndexEntry)) (key : String) :
    List (String × IndexEntry) :=
  es.filter (fun p => !(p.1 == key))

/-- The `Occupied`/`Vacant` upsert performed by `Loader::update_entry`: an
occupied slot keeps its position and its stored `key` field, updating `token`
and `file_name`; a vacant slot gets a fresh `IndexEntry {key, token, name}`. -/
def upsertEntry (es : List (String × IndexEntry)) (key : String) (token : Token)
    (name : String) : List (String × IndexEntry) :=
  match es with
  | [] => [(key, { key := key, token := token, file_name := name })]
  | p :: rest =>
    if p.1 == key then
      (p.1, { p.2 with token := token, file_name := name }) :: rest
    else
      p :: upsertEntry rest key token name

/-- `HashSet::insert` on the list of used keys. -/
def insertUsed (used : List String) (key : String) : List String :=
  if used.contains key then used else key :: used

/-- `Loader::path_for`: `self.root.join(key)`. -/
def Loader.path_for (l : Loader) (key : String) : String :=
  l.root ++ "/" ++ key

/-- `Loader::reference_for`: a `Reference` built from a stored `IndexEntry`,
with `changed = false`. -/
def Loader.reference_for (l : Loader) (e : IndexEntry) : Reference :=
  { path := l.path_for e.key, name := e.file_name, changed := false }

/-- `Loader::get_reference`. -/
def Loader.get_reference (l : Loader) (key : String) : Option Reference :=
  (lookupEntry l.entries key).map (fun e => l.reference_for e)

/-- `Loader::open`: build the loader from the parsed contents of
`root/index.json` (`none` when the file is absent, giving an empty index);
`read_cache_index` maps an absent file to the empty `Index`. -/
def Loader.open (root : String) (index : Option (List IndexEntry)) : Loader :=
  { root := root
    entries := (index.getD []).map (fun e => (e.key, e))
    used_entries := [] }

/-- The `Entry` view handed out by `Loader::entry`: the key and the token
currently known for it (the loader itself is passed alongside). -/
structure Entry where
  key : String
  current_token : Token
deriving DecidableEq, Repr

/-- `Loader::entry`: mark the key used and return the view bound to the
currently known token (`Unknown` when the key is absent from the index). -/
def Loader.entry (l : Loader) (key : String) : Loader × Entry :=
  let current := ((lookupEntry l.entries key).map (fun e => e.token)).getD Token.unknown
  ({ l with used_entries := insertUsed l.used_entries key },
   { key := key, current_token := current })

/-- The `EntryUpdater` struct of `src/cache.rs`: the entry view plus the
candidate token it was mismatched against. -/
structure EntryUpdater where
  entry : Entry
  token : Token
deriving DecidableEq, Repr

/-- The `UpdateResult` enum of `src/cache.rs`. -/
inductive UpdateResult where
  | Mismatch (updater : EntryUpdater)
  | Match (reference : Reference)
deriving DecidableEq, Repr

/-- `Entry::try_update`: pure comparison of the stored token against the
candidate. On mismatch it returns an `EntryUpdater` carrying the candidate; on
match it returns the reference built from the stored `IndexEntry` — the
`.unwrap()` on `get_reference` is modelled by `Option`, `none` being the
panic. The filesystem is threaded through untouched: the function performs no
I/O. -/
def Entry.try_update (l : Loader) (fs : FS) (e : Entry) (token : Token) :
    Option (FS × UpdateResult) :=
  if Token.eq e.current_token token = false then
    some (fs, UpdateResult.Mismatch { entry := e, token := token })
  else
    (l.get_reference e.key).map (fun r => (fs, UpdateResult.Match r))

/-- `Entry::get_existing`: the cached reference for the key, if any, with no
token comparison. -/
def Entry.get_existing (l : Loader) (e : Entry) : Option Reference :=
  l.get_reference e.key

/-- `Loader::update_entry`: write the blob at `root/key` first, then upsert the
index entry, then return `Reference {path, name, changed := true}`. The write
outcome is the explicit `writeOk`; on a failed write the function returns
before any index mutation, so the pre-state is returned unchanged with no
reference. -/
def Loader.update_entry (l : Loader) (fs : FS) (writeOk : Bool) (key : String)
    (token : Token) (name : String) (bytes : Bytes) :
    (Loader × FS) × Option Reference :=
  let path := l.path_for key
  if writeOk then
    (({ l with entries := upsertEntry l.entries key token name },
      fsWrite fs path bytes),
     some { path := path, name := name, changed := true })
  else
    ((l, fs), none)

/-- A file as produced by a source provider (`source::File`). -/
structure File where
  name : String
  bytes : Bytes
deriving DecidableEq, Repr

/-- `EntryUpdater::update`: delegates to `Entry::update`, which delegates to
`Loader::update_entry` with the carried key and token. -/
def EntryUpdater.update (u : EntryUpdater) (l : Loader) (fs : FS)
    (writeOk : Bool) (file : File) : (Loader × FS) × Option Reference :=
  Loader.update_entry l fs writeOk u.entry.key u.token file.name file.bytes

/-- `Loader::close`: serialize the in-memory entries to `root/index.json`,
replacing its previous contents; the index file is modelled structurally as
`Option (List IndexEntry)`. A failed write (`writeOk = false`) is surfaced:
the flag in the result is `false` and the file keeps its old contents. -/
def Loader.close (l : Loader) (index : Option (List IndexEntry))
    (writeOk : Bool) : Option (List IndexEntry) × Bool :=
  if writeOk then (some (l.entries.map (fun p => p.2)), true)
  else (index, false)

/-- Filesystem operations, used to record which calls `close` makes. -/
inductive FsOp where
  | write (path : String)
  | rename (src : String) (dst : String)
  | removeFile (path : String)
deriving DecidableEq, Repr

/-- The filesystem calls made by `write_cache_index`: a single direct
`fs::write` to the given path. -/
def write_cache_index_ops (path : String) : List FsOp :=
  [FsOp.write path]

/-- The filesystem calls made by `Loader::close`: `write_cache_index` on
`root.join("index.json")`. -/
def Loader.close_ops (l : Loader) : List FsOp :=
  write_cache_index_ops (l.path_for "index.json")

/-- The inner loop of `Loader::drop_stale`: for each stale key, remove its
entry from the map (`.unwrap()` modelled by `none`), build the reference from
the removed entry, delete its blob file (`fs::remove_file` fails on an absent
file, modelled by `none`), and push the reference. -/
def removeStaleKeys (l : Loader) (fs : FS) (acc : List Reference) :
    List String → Option (Loader × FS × List Reference)
  | [] => some (l, fs, acc.reverse)
  | k :: ks =>
    match lookupEntry l.entries k with
    | none => none
    | some e =>
      let l2 : Loader := { l with entries := eraseEntry l.entries k }
      let r := l2.reference_for e
      match fsLookup fs r.path with
      | none => none
      | some _ => removeStaleKeys l2 (fsRemove fs r.path) (r :: acc) ks

/-- `Loader::drop_stale`: collect the keys of entries not in `used_entries`,
then remove each from the map and delete its blob, returning the references
describing what was removed. -/
def Loader.drop_stale (l : Loader) (fs : FS) :
    Option (Loader × FS × List Reference) :=
  let staleKeys :=
    ((l.entries.map (fun p => p.2)).filter
      (fun e => !(l.used_entries.contains e.key))).map (fun e => e.key)
  removeStaleKeys l fs [] staleKeys

/-- Fuel-bounded glob matching, modelled from the documented semantics of the
`glob` crate's `Pattern::matches` for the pattern forms this repository's
configurations use: literal characters, `?` (any single character other than
the path separator) and `*` (any sequence of characters not containing the
path separator). The fuel strictly exceeds the sum of the two lengths, which
bounds the recursion depth. -/
def globMatchF : Nat → List Char → List Char → Bool
  | 0, _, _ => false
  | _ + 1, [], [] => true
  | _ + 1, [], _ :: _ => false
  | fuel + 1, '*' :: p, [] => globMatchF fuel p []
  | fuel + 1, '*' :: p, c :: s =>
    globMatchF fuel p (c :: s) || ((c != '/') && globMatchF fuel ('*' :: p) s)
  | _ + 1, _ :: _, [] => false
  | fuel + 1, '?' :: p, c :: s => (c != '/') && globMatchF fuel p s
  | fuel + 1, a :: p, c :: s => (a == c) && globMatchF fuel p s

/-- A compiled `glob::Pattern`, carried by its source text. -/
structure GlobPattern where
  pattern : String
deriving DecidableEq, Repr

/-- `glob::Pattern::matches`. -/
def GlobPattern.matches (g : GlobPattern) (path : String) : Bool :=
  globMatchF (g.pattern.length + path.length + 1) g.pattern.data path.data

/-- The `Pattern` struct of `src/transform.rs`: a glob tagged include or
exclude. -/
structure Pattern where
  glob : GlobPattern
  exclude : Bool
deriving DecidableEq, Repr

/-- `matches_all` of `src/transform.rs`: every include pattern matches and no
exclude pattern matches. -/
def matches_all (path : String) (patterns : List Pattern) : Bool :=
  let includePats := patterns.filter (fun p => !p.exclude)
  let excludePats := patterns.filter (fun p => p.exclude)
  includePats.all (fun p => p.glob.matches path)
    && !(excludePats.any (fun p => p.glob.matches path))

/-- One member of a zip archive: its name, whether it is a regular file, and
its contents. The archive itself is the list of members in the archive's
natural directory order. -/
structure ZipEntry where
  name : String
  isFile : Bool
  bytes : Bytes
deriving DecidableEq, Repr

/-- `ZipArchive::by_name`: the first member carrying the given name. -/
def zipByName (zip : List ZipEntry) (n : String) : Option ZipEntry :=
  zip.find? (fun e => e.name == n)

/-- The selection loop of `apply_unzip`: walk the pre-filtered names in order,
look each up with `by_name`, and return the first that is a regular file. -/
def unzipSelect (zip : List ZipEntry) : List String → Option File
  | [] => none
  | n :: rest =>
    match zipByName zip n with
    | none => none
    | some f =>
      if f.isFile then some { name := f.name, bytes := f.bytes }
      else unzipSelect zip rest

/-- `apply_unzip` of `src/transform.rs`: filter the archive's names through
`matches_all`, then return the bytes and name of the first matching member
that is a regular file, or `none` when there is none. -/
def apply_unzip (zip : List ZipEntry) (patterns : List Pattern) : Option File :=
  unzipSelect zip ((zip.map (fun e => e.name)).filter (fun n => matches_all n patterns))

/-- `Reference::copy_to` of `src/cache.rs`: `fs::copy(self.path, root/name)`,
reading the blob from the cache-side filesystem and overwriting the
destination file of that name; copying fails (`none`) when the source blob is
absent. The destination directory is itself an `FS` keyed by file name. -/
def Reference.copy_to (fs : FS) (r : Reference) (dest : FS) : Option FS :=
  (fsLookup fs r.path).map (fun b => fsWrite dest r.name b)

/-- `Reference::remove_from` of `src/cache.rs`: remove `root/name` when it
exists; absence is not an error, so the net effect is removal of the binding. -/
def Reference.remove_from (r : Reference) (dest : FS) : FS :=
  fsRemove dest r.name

/-- The `PreparedDestination` struct of `src/main.rs` (minus the root path,
which is passed alongside as the destination directory itself). -/
structure PreparedDestination where
  cache_files : List (String × Reference)
  old_files : List Reference

/-- The copy loop of `PreparedDestination::apply`: copy every fresh reference
into the destination, propagating a copy failure. -/
def copyAllFiles (fs : FS) : List (String × Reference) → FS → Option FS
  | [], d => some d
  | kr :: rest, d =>
    match Reference.copy_to fs kr.2 d with
    | none => none
    | some d2 => copyAllFiles fs rest d2

/-- `PreparedDestination::apply` of `src/main.rs`: if the destination exists,
remove every old (stale) reference's name from it; otherwise create it empty;
then copy every fresh reference in, overwriting. `dest = none` models an
absent destination directory. -/
def PreparedDestination.apply (fs : FS) (pd : PreparedDestination)
    (dest : Option FS) : Option FS :=
  let d := match dest with
    | some d => pd.old_files.foldl (fun d r => Reference.remove_from r d) d
    | none => ([] : FS)
  copyAllFiles fs pd.cache_files d

/-- Errors of the fetch pipeline (`Error` in `src/main.rs`), restricted to the
variants the embedded pipeline can produce. -/
inductive LoadError where
  | MissingArtifact
  | IoError
deriving DecidableEq, Repr

/-- `github::load` of `src/source/github.rs`. The network is an oracle: the
resolution outcome (`none` when no latest artifact is resolvable, otherwise
the artifact id and name), the bytes a download would return, and the write
outcome are parameters; the extractor is the `transform.apply` function. The
result carries the post-state, a flag recording whether the payload download
was performed, and the pipeline outcome; the outer `none` is the `.unwrap()`
panic inside `try_update`. -/
def github_load (l : Loader) (fs : FS) (e : Entry)
    (resolved : Option (Nat × String)) (fetched : Bytes) (writeOk : Bool)
    (transformApply : File → Option File) :
    Option ((Loader × FS) × Bool × Except LoadError Reference) :=
  match resolved with
  | some idName =>
    match Entry.try_update l fs e (Token.artifactId idName.1) with
    | none => none
    | some (fs1, UpdateResult.Match r) => some ((l, fs1), false, Except.ok r)
    | some (fs1, UpdateResult.Mismatch updater) =>
      let fname := idName.2 ++ ".zip"
      let file : File := { name := fname, bytes := fetched }
      match transformApply file with
      | none => some ((l, fs1), true, Except.error LoadError.MissingArtifact)
      | some f =>
        match EntryUpdater.update updater l fs1 writeOk f with
        | ((l2, fs2), some r) => some ((l2, fs2), true, Except.ok r)
        | ((l2, fs2), none) => some ((l2, fs2), true, Except.error LoadError.IoError)
  | none =>
    match Entry.get_existing l e with
    | some r => some ((l, fs), false, Except.ok r)
    | none => some ((l, fs), false, Except.error LoadError.MissingArtifact)

/-- `modrinth::load` of `src/source/modrinth.rs`: the same pipeline shape with
a `Sha512` token built from the resolved version's hash. -/
def modrinth_load (l : Loader) (fs : FS) (e : Entry)
    (resolved : Option (String × String)) (fetched : Bytes) (writeOk : Bool)
    (transformApply : File → Option File) :
    Option ((Loader × FS) × Bool × Except LoadError Reference) :=
  match resolved with
  | some hashName =>
    match Entry.try_update l fs e (Token.sha512 hashName.1) with
    | none => none
    | some (fs1, UpdateResult.Match r) => some ((l, fs1), false, Except.ok r)
    | some (fs1, UpdateResult.Mismatch updater) =>
      let fname := hashName.2 ++ ".zip"
      let file : File := { name := fname, bytes := fetched }
      match transformApply file with
      | none => some ((l, fs1), true, Except.error LoadError.MissingArtifact)
      | some f =>
        match EntryUpdater.update updater l fs1 writeOk f with
        | ((l2, fs2), some r) => some ((l2, fs2), true, Except.ok r)
        | ((l2, fs2), none) => some ((l2, fs2), true, Except.error LoadError.IoError)
  | none =>
    match Entry.get_existing l e with
    | some r => some ((l, fs), false, Except.ok r)
    | none => some ((l, fs), false, Except.error LoadError.MissingArtifact)

/-- The cache lifecycle of `prepare_destination` in `src/main.rs`, as written:
open the loader from the persisted index, call `entry()` for each configured
key (each key's pipeline is modelled as a cache hit, leaving the entries map
unchanged), then `close()` — the function never invokes `drop_stale`, so this
returns the index contents that `close` persists. -/
def prepare_destination_index (persisted : Option (List IndexEntry))
    (keys : List String) : Option (List IndexEntry) :=
  let l := Loader.open "wrapper_cache/dest" persisted
  let l := keys.foldl (fun l k => (Loader.entry l k).1) l
  (Loader.close l persisted true).1

/-- Concrete index entry for key `a`, used by the test scenarios. -/
def entryA : IndexEntry := { key := "a", token := Token.etag "ta", file_name := "fa" }

/-- Concrete index entry for key `b`. -/
def entryB : IndexEntry := { key := "b", token := Token.artifactId 7, file_name := "fb" }

/-- Concrete index entry for key `c`. -/
def entryC : IndexEntry := { key := "c", token := Token.sha512 "hc", file_name := "fc" }

/-- A loader freshly opened on a persisted index holding keys `a`, `b`, `c`. -/
def abcLoader : Loader := Loader.open "root" (some [entryA, entryB, entryC])

/-- The `abcLoader` after a run that looked up only keys `a` and `b`. -/
def abLoader : Loader := (Loader.entry (Loader.entry abcLoader "a").1 "b").1

/-- Blob files matching `abcLoader`'s index. -/
def abcFS : FS := [("root/a", [1]), ("root/b", [2]), ("root/c", [3])]

/-- The concrete mismatch updater used by the update witness. -/
def updaterW : EntryUpdater :=
  { entry := { key := "a", current_token := Token.etag "ta" }, token := Token.etag "new" }

/-- The concrete fetched-and-transformed file used by the update witness. -/
def fileW : File := { name := "na", bytes := [9, 9] }

/-- The include and exclude patterns of the concrete extractor scenario. -/
def pats8 : List Pattern :=
  [{ glob := { pattern := "lib/*.jar" }, exclude := false },
   { glob := { pattern := "lib/test-*.jar" }, exclude := true }]

/-- A concrete archive: a directory, an excluded jar, and an accepted jar. -/
def zip8 : List ZipEntry :=
  [{ name := "lib/", isFile := false, bytes := [] },
   { name := "lib/test-foo.jar", isFile := true, bytes := [1] },
   { name := "lib/core.jar", isFile := true, bytes := [2] }]

/-- The bytes that end up under name `n` after the copy loop: the last fresh
reference named `n` wins, reading its blob from the cache filesystem. -/
def lastCopy (fs : FS) : List (String × Reference) → String → Option Bytes
  | [], _ => none
  | kr :: rest, n =>
    match lastCopy fs rest n with
    | some b => some b
    | none => if kr.2.name == n then fsLookup fs kr.2.path else none

/-- Concrete cache-side filesystem for the sync witness. -/
def fs9 : FS := [("cache/x", [5])]

/-- Concrete prepared destination for the sync witness: one fresh reference
and one stale reference. -/
def pd9 : PreparedDestination :=
  { cache_files := [("x", { path := "cache/x", name := "nx", changed := true })],
    old_files := [{ path := "cache/y", name := "ny", changed := false }] }

/-- The loader state left behind by the concrete eviction scenario. -/
def abDropLoader : Loader :=
  { root := "root", entries := [("a", entryA), ("b", entryB)],
    used_entries := ["b", "a"] }

/-- The blob files left behind by the concrete eviction scenario. -/
def abDropFS : FS := [("root/a", [1]), ("root/b", [2])]

/-- `Token.eq` with `unknown` on the left always fails. -/
theorem token_eq_unknown_left (t : Token) : Token.eq Token.unknown t = false := by
  cases t <;> rfl

/-- Reading back the path just written returns the new bytes. -/
theorem fsLookup_fsWrite_self (fs : FS) (p : String) (b : Bytes) :
    fsLookup (fsWrite fs p b) p = some b := by
  simp [fsLookup, fsWrite]

/-- Searching for one key is unaffected by filtering out a different key. -/
theorem find?_filter_of_ne {α : Type} (l : List (String × α)) (p q : String)
    (h : q ≠ p) :
    (l.filter (fun x => !(x.1 == p))).find? (fun x => x.1 == q) =
      l.find? (fun x => x.1 == q) := by
  induction l with
  | nil => rfl
  | cons x l ih =>
    by_cases hx : x.1 = p
    · have hq : ¬(x.1 = q) := by rw [hx]; exact Ne.symm h
      simp [List.filter_cons, List.find?_cons, hx, hq, ih, Ne.symm h, h]
    · by_cases hq : x.1 = q <;>
        simp [List.filter_cons, List.find?_cons, hx, hq, ih, Ne.symm h, h]

/-- Searching for the filtered-out key finds nothing. -/
theorem find?_filter_self {α : Type} (l : List (String × α)) (p : String) :
    (l.filter (fun x => !(x.1 == p))).find? (fun x => x.1 == p) = none := by
  induction l with
  | nil => rfl
  | cons x l ih =>
    by_cases hx : x.1 = p <;> simp [List.filter_cons, List.find?_cons, hx, ih]

/-- Reading any other path is unaffected by a write. -/
theorem fsLookup_fsWrite_ne (fs : FS) (p q : String) (b : Bytes) (h : q ≠ p) :
    fsLookup (fsWrite fs p b) q = fsLookup fs q := by
  have hpq : ¬(p = q) := Ne.symm h
  simp [fsLookup, fsWrite, List.find?_cons, hpq, find?_filter_of_ne fs p q h]

/-- Reading after a removal: the removed path is gone, others untouched. -/
theorem fsLookup_fsRemove (fs : FS) (p q : String) :
    fsLookup (fsRemove fs p) q = if p = q then none else fsLookup fs q := by
  by_cases hpq : p = q
  · subst hpq
    simp [fsLookup, fsRemove, find?_filter_self fs p]
  · simp [fsLookup, fsRemove, hpq, find?_filter_of_ne fs p q (Ne.symm hpq)]

/-- Removing one key from the map leaves every other lookup unchanged. -/
theorem lookupEntry_eraseEntry_ne (es : List (String × IndexEntry)) (k k2 : String)
    (h : k2 ≠ k) : lookupEntry (eraseEntry es k) k2 = lookupEntry es k2 := by
  simp [lookupEntry, eraseEntry, find?_filter_of_ne es k k2 h]

/-- In a map whose bound keys agree with the stored `key` fields and whose keys
are distinct, every member is found by looking up its own key. -/
theorem lookupEntry_of_mem (es : List (String × IndexEntry))
    (hnd : (es.map (fun p => p.1)).Nodup) (p : String × IndexEntry)
    (hp : p ∈ es) : lookupEntry es p.1 = some p.2 := by
  induction es with
  | nil => cases hp
  | cons x es ih =>
    rcases List.mem_cons.mp hp with hp | hp
    · simp [lookupEntry, hp]
    · have hx : ¬(x.1 = p.1) := by
        intro hcontra
        have : p.1 ∈ es.map (fun q => q.1) := List.mem_map_of_mem _ hp
        rw [List.map_cons] at hnd
        exact (List.nodup_cons.mp hnd).1 (hcontra ▸ this)
      have := ih (by rw [List.map_cons] at hnd; exact (List.nodup_cons.mp hnd).2) hp
      simpa [lookupEntry, hx] using this

/-- `path_for` is injective in the key for a fixed loader. -/
theorem path_for_inj (l : Loader) (k1 k2 : String)
    (h : l.path_for k1 = l.path_for k2) : k1 = k2 := by
  have hdata : (l.root ++ "/" ++ k1).data = (l.root ++ "/" ++ k2).data := by
    simpa [Loader.path_for] using congrArg String.data h
  simp only [String.data_append] at hdata
  exact String.ext (List.append_cancel_left hdata)

/-- Upserting a key then looking it up yields the new token and name; when the
map is well formed (bound key = stored key field), the stored entry is exactly
the fresh record. -/
theorem lookupEntry_upsertEntry_self (es : List (String × IndexEntry))
    (hwf : ∀ p ∈ es, p.1 = p.2.key) (key : String) (token : Token) (name : String) :
    lookupEntry (upsertEntry es key token name) key =
      some { key := key, token := token, file_name := name } := by
  induction es with
  | nil => simp [lookupEntry, upsertEntry]
  | cons x es ih =>
    by_cases hx : x.1 = key
    · have hk : x.2.key = key := (hwf x (List.mem_cons_self x es)).symm.trans hx
      simp [lookupEntry, upsertEntry, hx, hk]
    · have := ih (fun p hp => hwf p (List.mem_cons_of_mem x hp))
      simpa [lookupEntry, upsertEntry, hx] using this

/-- Upserting a key leaves every other lookup unchanged. -/
theorem lookupEntry_upsertEntry_ne (es : List (String × IndexEntry))
    (key k2 : String) (token : Token) (name : String) (h : k2 ≠ key) :
    lookupEntry (upsertEntry es key token name) k2 = lookupEntry es k2 := by
  induction es with
  | nil => simp [lookupEntry, upsertEntry, Ne.symm h]
  | cons x es ih =>
    by_cases hx : x.1 = key <;> by_cases hk2 : x.1 = k2 <;>
      simp_all [lookupEntry, upsertEntry]

/-- C3: for all tokens `t1 t2`, the `PartialEq` comparison succeeds iff the two
are the same variant carrying equal payloads — that is, iff they are equal as
values and that value is not `Unknown`. In particular tokens of different
variants are never equal and `Unknown == Unknown` is false. -/
theorem token_eq_iff_eq_and_not_unknown :
    ∀ t1 t2 : Token, (Token.eq t1 t2 = true ↔ (t1 = t2 ∧ t1 ≠ Token.unknown))
      ∧ Token.eq Token.unknown Token.unknown = false := by
  intro t1 t2
  refine ⟨?_, rfl⟩
  cases t1 <;> cases t2 <;>
    simp [Token.eq]

/-- The token the `Entry` view carries is a mismatch against every candidate
when the key is absent, and otherwise is the stored entry's token. This is the
core of `Loader::entry`'s token binding. -/
theorem entry_current_token (l : Loader) (key : String) :
    (Loader.entry l key).2.current_token =
      ((lookupEntry l.entries key).map (fun e => e.token)).getD Token.unknown := rfl

/-- Helper: a successful token match forces the key to be present in the map. -/
theorem lookup_isSome_of_match (l : Loader) (key : String) (c : Token)
    (h : Token.eq (Loader.entry l key).2.current_token c = true) :
    ∃ ie, lookupEntry l.entries key = some ie ∧ Token.eq ie.token c = true := by
  cases hlk : lookupEntry l.entries key with
  | none =>
    rw [entry_current_token, hlk] at h
    simp [token_eq_unknown_left] at h
  | some ie =>
    rw [entry_current_token, hlk] at h
    exact ⟨ie, rfl, h⟩

/-- C2: `Entry.try_update(c)` on the view produced by `Loader::entry(key)`:
when the stored token matches the candidate under the token comparison
protocol, it returns `Match` of the reference built from the existing
`IndexEntry` with `changed = false`, leaving the filesystem untouched (no disk
I/O); when it does not match, it returns `Mismatch` of an `EntryUpdater`
carrying the candidate token, again leaving the filesystem untouched. -/
theorem try_update_match_mismatch (l : Loader) (fs : FS) (key : String) (c : Token) :
    (Token.eq (Loader.entry l key).2.current_token c = true →
      ∃ ie, lookupEntry l.entries key = some ie ∧
        Entry.try_update (Loader.entry l key).1 fs (Loader.entry l key).2 c =
          some (fs, UpdateResult.Match
            { path := l.path_for ie.key, name := ie.file_name, changed := false })) ∧
    (Token.eq (Loader.entry l key).2.current_token c = false →
      Entry.try_update (Loader.entry l key).1 fs (Loader.entry l key).2 c =
        some (fs, UpdateResult.Mismatch
          { entry := (Loader.entry l key).2, token := c })) := by
  constructor
  · intro h
    obtain ⟨ie, hlk, hie⟩ := lookup_isSome_of_match l key c h
    refine ⟨ie, hlk, ?_⟩
    simp [Entry.try_update, h, hie, Loader.get_reference, Loader.entry, hlk,
      Loader.reference_for, Loader.path_for]
  · intro h
    simp [Entry.try_update, h]

/-- Witness for the try-update theorem: on the concrete loader over keys
`a, b, c`, presenting the stored token of `a` yields a zero-I/O `Match` with
`changed = false`, while presenting a different etag yields a `Mismatch`
carrying the candidate. -/
theorem try_update_match_mismatch_witness :
    (∃ ie, lookupEntry abcLoader.entries "a" = some ie ∧
      Entry.try_update (Loader.entry abcLoader "a").1 abcFS
          (Loader.entry abcLoader "a").2 (Token.etag "ta") =
        some (abcFS, UpdateResult.Match
          { path := abcLoader.path_for ie.key, name := ie.file_name, changed := false })) ∧
    Entry.try_update (Loader.entry abcLoader "a").1 abcFS
        (Loader.entry abcLoader "a").2 (Token.etag "zz") =
      some (abcFS, UpdateResult.Mismatch
        { entry := (Loader.entry abcLoader "a").2, token := Token.etag "zz" }) :=
  ⟨(try_update_match_mismatch abcLoader abcFS "a" (Token.etag "ta")).1 (by decide),
   (try_update_match_mismatch abcLoader abcFS "a" (Token.etag "zz")).2 (by decide)⟩

/-- C10: whenever `try_update` on a view produced by `Loader::entry` reports a
match, the key is present in the loader's in-memory map — the stored token can
only be a non-`Unknown` value loaded from an existing `IndexEntry`, since
`Unknown` equals no token — so the `Reference` is built from that entry and
the `.unwrap()` inside `try_update` cannot fail. -/
theorem match_never_panics (l : Loader) (fs : FS) (key : String) (c : Token)
    (h : Token.eq (Loader.entry l key).2.current_token c = true) :
    (Loader.entry l key).2.current_token ≠ Token.unknown ∧
    (lookupEntry l.entries key).isSome ∧
    ∃ r, Entry.try_update (Loader.entry l key).1 fs (Loader.entry l key).2 c =
      some (fs, UpdateResult.Match r) := by
  obtain ⟨ie, hlk, hie⟩ := lookup_isSome_of_match l key c h
  refine ⟨?_, by simp [hlk], ?_⟩
  · intro hu
    rw [hu, token_eq_unknown_left] at h
    cases h
  · refine ⟨{ path := l.path_for ie.key, name := ie.file_name, changed := false }, ?_⟩
    simp [Entry.try_update, h, hie, Loader.get_reference, Loader.entry, hlk,
      Loader.reference_for, Loader.path_for]

/-- Witness for the match-never-panics theorem at the concrete loader. -/
theorem match_never_panics_witness :
    (Loader.entry abcLoader "b").2.current_token ≠ Token.unknown ∧
    (lookupEntry abcLoader.entries "b").isSome ∧
    ∃ r, Entry.try_update (Loader.entry abcLoader "b").1 abcFS
      (Loader.entry abcLoader "b").2 (Token.artifactId 7) =
        some (abcFS, UpdateResult.Match r) :=
  match_never_panics abcLoader abcFS "b" (Token.artifactId 7) (by decide)

/-- C5: `EntryUpdater.update(name, bytes)` with a successful blob write stores
the bytes at `root/key` (a full overwrite), inserts or replaces the
`IndexEntry` for the key with the carried candidate token and the new name
(leaving every other key's entry and every other path's contents unchanged),
and returns `Reference {path := root/key, name, changed := true}`; with a
failed blob write it returns the loader and filesystem completely unchanged
and no reference — the write strictly precedes the index mutation, so no
partial `IndexEntry` is ever observable. -/
theorem entry_updater_update_spec (u : EntryUpdater) (l : Loader) (fs : FS)
    (file : File) (hwf : ∀ p ∈ l.entries, p.1 = p.2.key) :
    (EntryUpdater.update u l fs true file).2 =
      some { path := l.path_for u.entry.key, name := file.name, changed := true } ∧
    lookupEntry (EntryUpdater.update u l fs true file).1.1.entries u.entry.key =
      some { key := u.entry.key, token := u.token, file_name := file.name } ∧
    (∀ k, k ≠ u.entry.key →
      lookupEntry (EntryUpdater.update u l fs true file).1.1.entries k =
        lookupEntry l.entries k) ∧
    fsLookup (EntryUpdater.update u l fs true file).1.2 (l.path_for u.entry.key) =
      some file.bytes ∧
    (∀ q, q ≠ l.path_for u.entry.key →
      fsLookup (EntryUpdater.update u l fs true file).1.2 q = fsLookup fs q) ∧
    EntryUpdater.update u l fs false file = ((l, fs), none) := by
  refine ⟨rfl, ?_, ?_, ?_, ?_, rfl⟩
  · simpa [EntryUpdater.update, Loader.update_entry] using
      lookupEntry_upsertEntry_self l.entries hwf u.entry.key u.token file.name
  · intro k hk
    simpa [EntryUpdater.update, Loader.update_entry] using
      lookupEntry_upsertEntry_ne l.entries u.entry.key k u.token file.name hk
  · simpa [EntryUpdater.update, Loader.update_entry] using
      fsLookup_fsWrite_self fs (l.path_for u.entry.key) file.bytes
  · intro q hq
    simpa [EntryUpdater.update, Loader.update_entry] using
      fsLookup_fsWrite_ne fs (l.path_for u.entry.key) q file.bytes hq

/-- Witness for the updater theorem: committing a mismatch for key `a` on the
concrete loader writes the blob, replaces the entry, and reports the changed
reference; a failed write changes nothing. -/
theorem entry_updater_update_spec_witness :
    (EntryUpdater.update updaterW abcLoader abcFS true fileW).2 =
      some { path := abcLoader.path_for updaterW.entry.key, name := fileW.name,
             changed := true } ∧
    lookupEntry (EntryUpdater.update updaterW abcLoader abcFS true fileW).1.1.entries
        updaterW.entry.key =
      some { key := updaterW.entry.key, token := updaterW.token,
             file_name := fileW.name } ∧
    (∀ k, k ≠ updaterW.entry.key →
      lookupEntry (EntryUpdater.update updaterW abcLoader abcFS true fileW).1.1.entries k =
        lookupEntry abcLoader.entries k) ∧
    fsLookup (EntryUpdater.update updaterW abcLoader abcFS true fileW).1.2
        (abcLoader.path_for updaterW.entry.key) = some fileW.bytes ∧
    (∀ q, q ≠ abcLoader.path_for updaterW.entry.key →
      fsLookup (EntryUpdater.update updaterW abcLoader abcFS true fileW).1.2 q =
        fsLookup abcFS q) ∧
    EntryUpdater.update updaterW abcLoader abcFS false fileW = ((abcLoader, abcFS), none) :=
  entry_updater_update_spec updaterW abcLoader abcFS fileW (by decide)

/-- C6 (amended): `close()` serializes the in-memory entries to the index file,
fully replacing its previous contents whatever they were, and a failed write is
surfaced (the result flag is false), not swallowed; however the write is a
single direct in-place `fs::write` to `root/index.json` — there is no
temporary path and no atomic rename. -/
theorem close_spec (l : Loader) (index : Option (List IndexEntry)) :
    (Loader.close l index true).1 = some (l.entries.map (fun p => p.2)) ∧
    (Loader.close l index true).2 = true ∧
    Loader.close l index false = (index, false) ∧
    Loader.close_ops l = [FsOp.write (l.root ++ "/index.json")] := by
  refine ⟨rfl, rfl, rfl, ?_⟩
  simp [Loader.close_ops, write_cache_index_ops, Loader.path_for,
    String.append_assoc]

/-- Counterexample to C6 as stated: on the concrete loader, the only
filesystem call `close` makes is one direct write to `root/index.json`; no
write to a temporary path followed by an atomic rename onto the index file
exists in its operations. -/
theorem close_no_temp_rename :
    Loader.close_ops abcLoader = [FsOp.write "root/index.json"] ∧
    ¬ ∃ tmp, tmp ≠ "root/index.json" ∧
        FsOp.write tmp ∈ Loader.close_ops abcLoader ∧
        FsOp.rename tmp "root/index.json" ∈ Loader.close_ops abcLoader := by
  have hops : Loader.close_ops abcLoader = [FsOp.write "root/index.json"] := by decide
  refine ⟨hops, ?_⟩
  rintro ⟨tmp, _, _, hr⟩
  rw [hops] at hr
  simp at hr

/-- C7: when the source provider resolves no latest version (`None`), both the
GitHub and the Modrinth pipelines fall back to `Entry.get_existing()`: if a
cached reference exists the pipeline succeeds with it, with `changed = false`,
no payload fetch performed, and the cache state untouched; if none exists it
fails with `MissingArtifact`, again without fetching. -/
theorem load_none_falls_back (l : Loader) (fs : FS) (e : Entry) (fetched : Bytes)
    (writeOk : Bool) (tf : File → Option File) :
    (∀ r, Entry.get_existing l e = some r →
      r.changed = false ∧
      github_load l fs e none fetched writeOk tf = some ((l, fs), false, Except.ok r) ∧
      modrinth_load l fs e none fetched writeOk tf = some ((l, fs), false, Except.ok r)) ∧
    (Entry.get_existing l e = none →
      github_load l fs e none fetched writeOk tf =
        some ((l, fs), false, Except.error LoadError.MissingArtifact) ∧
      modrinth_load l fs e none fetched writeOk tf =
        some ((l, fs), false, Except.error LoadError.MissingArtifact)) := by
  constructor
  · intro r hr
    refine ⟨?_, by simp [github_load, hr], by simp [modrinth_load, hr]⟩
    unfold Entry.get_existing Loader.get_reference at hr
    obtain ⟨ie, _, hrf⟩ := Option.map_eq_some'.mp hr
    rw [← hrf]
    rfl
  · intro h
    exact ⟨by simp [github_load, h], by simp [modrinth_load, h]⟩

/-- Witness for the fallback theorem: on the concrete loader, key `a` has a
cached reference and is served unchanged; an unconfigured key fails with
`MissingArtifact`. -/
theorem load_none_falls_back_witness :
    ((Loader.reference_for abcLoader entryA).changed = false ∧
      github_load abcLoader abcFS { key := "a", current_token := Token.etag "ta" }
          none [] true some =
        some ((abcLoader, abcFS), false, Except.ok (Loader.reference_for abcLoader entryA)) ∧
      modrinth_load abcLoader abcFS { key := "a", current_token := Token.etag "ta" }
          none [] true some =
        some ((abcLoader, abcFS), false, Except.ok (Loader.reference_for abcLoader entryA))) ∧
    (github_load abcLoader abcFS { key := "zzz", current_token := Token.unknown }
        none [] true some =
      some ((abcLoader, abcFS), false, Except.error LoadError.MissingArtifact) ∧
     modrinth_load abcLoader abcFS { key := "zzz", current_token := Token.unknown }
        none [] true some =
      some ((abcLoader, abcFS), false, Except.error LoadError.MissingArtifact)) :=
  ⟨(load_none_falls_back abcLoader abcFS
      { key := "a", current_token := Token.etag "ta" } [] true some).1
      (Loader.reference_for abcLoader entryA) (by decide),
   (load_none_falls_back abcLoader abcFS
      { key := "zzz", current_token := Token.unknown } [] true some).2 (by decide)⟩

/-- C1 as the code behaves: running the `prepare_destination` cache lifecycle
of `src/main.rs` over a persisted index `{a, b, c}` with only keys `a` and `b`
configured leaves the persisted index unchanged — the stale entry `c` is still
present after `close`, because the function never invokes `drop_stale` and so
computes no evicted references for Destination Sync. -/
theorem prepare_destination_never_drops_stale :
    prepare_destination_index (some [entryA, entryB, entryC]) ["a", "b"] =
      some [entryA, entryB, entryC] := by decide

/-- Filtering after mapping equals mapping after filtering on the composed
predicate. -/
theorem filter_map_comm {α β : Type} (f : α → β) (g : β → Bool) (l : List α) :
    (l.map f).filter g = (l.filter (fun a => g (f a))).map f := by
  induction l with
  | nil => rfl
  | cons a l ih =>
    by_cases h : g (f a) <;> simp [List.filter_cons, h, ih]

/-- With distinct member names, `by_name` on a member's own name returns that
member. -/
theorem zipByName_of_mem (zip : List ZipEntry)
    (hnd : (zip.map (fun e => e.name)).Nodup) (e : ZipEntry) (he : e ∈ zip) :
    zipByName zip e.name = some e := by
  induction zip with
  | nil => cases he
  | cons x zip ih =>
    rcases List.mem_cons.mp he with he | he
    · simp [zipByName, List.find?_cons, he]
    · rw [List.map_cons, List.nodup_cons] at hnd
      have hx : ¬(x.name = e.name) := fun hc =>
        hnd.1 (hc ▸ List.mem_map_of_mem (fun z => z.name) he)
      have := ih hnd.2 he
      simpa [zipByName, List.find?_cons, hx] using this

/-- The selection loop over a list of names that `by_name` resolves faithfully
is the first regular file of the corresponding members. -/
theorem unzipSelect_eq_find (zip : List ZipEntry) (S : List ZipEntry)
    (h : ∀ e ∈ S, zipByName zip e.name = some e) :
    unzipSelect zip (S.map (fun e => e.name)) =
      (S.find? (fun e => e.isFile)).map
        (fun e => { name := e.name, bytes := e.bytes : File }) := by
  induction S with
  | nil => rfl
  | cons e S ih =>
    have he := h e (List.mem_cons_self e S)
    have ht := ih (fun x hx => h x (List.mem_cons_of_mem e hx))
    by_cases hf : e.isFile <;>
      simp [unzipSelect, List.find?_cons, he, hf, ht]

/-- C8: an archive entry matches iff it matches every include pattern
(vacuously true with no includes) and no exclude pattern; on an archive with
distinct member names, `apply_unzip` returns the first matching member in
archive order that is a regular file (with its name and bytes), and `none`
when no matching regular file exists; and with include `lib/*.jar` and
exclude `lib/test-*.jar`, `lib/test-foo.jar` is rejected while `lib/core.jar`
is accepted. -/
theorem extractor_spec :
    (∀ (path : String) (patterns : List Pattern),
      matches_all path patterns = true ↔
        ((∀ p ∈ patterns, p.exclude = false → p.glob.matches path = true) ∧
         (∀ p ∈ patterns, p.exclude = true → p.glob.matches path = false))) ∧
    (∀ (zip : List ZipEntry) (patterns : List Pattern),
      (zip.map (fun e => e.name)).Nodup →
      apply_unzip zip patterns =
        ((zip.filter (fun e => matches_all e.name patterns)).find?
            (fun e => e.isFile)).map
          (fun e => { name := e.name, bytes := e.bytes : File })) ∧
    matches_all "lib/test-foo.jar" pats8 = false ∧
    matches_all "lib/core.jar" pats8 = true := by
  refine ⟨?_, ?_, by decide, by decide⟩
  · intro path patterns
    simp only [matches_all, Bool.and_eq_true, List.all_eq_true, List.mem_filter,
      Bool.not_eq_true', List.any_eq_false, Bool.not_eq_true]
    constructor
    · rintro ⟨hi, he⟩
      exact ⟨fun p hp hx => hi p ⟨hp, by simp [hx]⟩,
        fun p hp hx => by
          have := he p ⟨hp, hx⟩
          simpa using this⟩
    · rintro ⟨hi, he⟩
      exact ⟨fun p hp => hi p hp.1 (by simpa using hp.2),
        fun p hp => by simp [he p hp.1 hp.2]⟩
  · intro zip patterns hnd
    unfold apply_unzip
    rw [filter_map_comm]
    exact unzipSelect_eq_find zip (zip.filter (fun e => matches_all e.name patterns))
      (fun e he => zipByName_of_mem zip hnd e (List.mem_of_mem_filter he))

/-- Witness for the extractor theorem: on the concrete archive with the
concrete patterns, the excluded test jar is skipped and the core jar is
extracted. -/
theorem extractor_spec_witness :
    apply_unzip zip8 pats8 = some { name := "lib/core.jar", bytes := [2] } :=
  (extractor_spec.2.1 zip8 pats8 (by decide)).trans (by decide)

/-- Looking up a name after the stale-removal loop: removed names read as
absent, all others are untouched. -/
theorem lookup_foldl_remove (olds : List Reference) (d : FS) (n : String) :
    fsLookup (olds.foldl (fun d r => Reference.remove_from r d) d) n =
      if olds.any (fun r => r.name == n) then none else fsLookup d n := by
  induction olds generalizing d with
  | nil => simp
  | cons r olds ih =>
    rw [List.foldl_cons, ih, List.any_cons]
    by_cases h : r.name = n
    · by_cases ho : olds.any (fun r => r.name == n) = true <;>
        simp [Reference.remove_from, fsLookup_fsRemove, h, ho]
    · by_cases ho : olds.any (fun r => r.name == n) = true <;>
        simp [Reference.remove_from, fsLookup_fsRemove, h, ho]

/-- The copy loop's success does not depend on the starting directory, and its
result reads as the last copied blob per name, falling back to the starting
directory. -/
theorem copyAllFiles_spec (fs : FS) (rs : List (String × Reference)) :
    ∀ (d d2 : FS), copyAllFiles fs rs d = some d2 →
    (∀ e : FS, ∃ e2, copyAllFiles fs rs e = some e2) ∧
    (∀ n, fsLookup d2 n =
      match lastCopy fs rs n with
      | some b => some b
      | none => fsLookup d n) := by
  induction rs with
  | nil =>
    intro d d2 h
    cases h
    exact ⟨fun e => ⟨e, rfl⟩, fun n => by simp [lastCopy]⟩
  | cons kr rest ih =>
    intro d d2 h
    rw [copyAllFiles] at h
    cases hb : Reference.copy_to fs kr.2 d with
    | none => rw [hb] at h; cases h
    | some d1 =>
      rw [hb] at h
      obtain ⟨b, hblob, hd1⟩ : ∃ b, fsLookup fs kr.2.path = some b ∧
          d1 = fsWrite d kr.2.name b := by
        unfold Reference.copy_to at hb
        obtain ⟨b, hb1, hb2⟩ := Option.map_eq_some'.mp hb
        exact ⟨b, hb1, hb2.symm⟩
      obtain ⟨hsucc, hlook⟩ := ih d1 d2 h
      constructor
      · intro e
        obtain ⟨e2, he2⟩ := hsucc (fsWrite e kr.2.name b)
        exact ⟨e2, by rw [copyAllFiles]; simp [Reference.copy_to, hblob, he2]⟩
      · intro n
        rw [hlook n]
        cases hlc : lastCopy fs rest n with
        | some b2 => simp [lastCopy, hlc]
        | none =>
          by_cases hn : kr.2.name = n
          · simp [lastCopy, hlc, hd1, hn, hblob, fsLookup_fsWrite_self]
          · simp [lastCopy, hlc, hd1, hn,
              fsLookup_fsWrite_ne d kr.2.name n b (Ne.symm hn)]

/-- C9: Destination Sync is idempotent. If applying a prepared destination (its
fresh references and its stale references) to any starting directory state
succeeds, applying it again to the result succeeds and produces a directory
with identical contents: every name reads back the same. Removal of an absent
name is by construction not an error. -/
theorem sync_idempotent (fs : FS) (pd : PreparedDestination) (dest : Option FS)
    (d1 : FS) (h : PreparedDestination.apply fs pd dest = some d1) :
    ∃ d2, PreparedDestination.apply fs pd (some d1) = some d2 ∧
      ∀ n, fsLookup d2 n = fsLookup d1 n := by
  unfold PreparedDestination.apply at h
  obtain ⟨hsucc, hlook1⟩ := copyAllFiles_spec fs pd.cache_files _ d1 h
  obtain ⟨d2, h2⟩ :=
    hsucc (pd.old_files.foldl (fun d r => Reference.remove_from r d) d1)
  refine ⟨d2, by simpa [PreparedDestination.apply] using h2, ?_⟩
  intro n
  obtain ⟨_, hlook2⟩ := copyAllFiles_spec fs pd.cache_files _ d2 h2
  rw [hlook2 n, hlook1 n]
  cases hlc : lastCopy fs pd.cache_files n with
  | some b => rfl
  | none =>
    rw [lookup_foldl_remove]
    by_cases ho : pd.old_files.any (fun r => r.name == n) = true
    · cases dest with
      | none => simp [ho, fsLookup]
      | some d => simp [ho, lookup_foldl_remove]
    · have hof : pd.old_files.any (fun r => r.name == n) = false := by
        cases hx : pd.old_files.any (fun r => r.name == n)
        · rfl
        · exact absurd hx ho
      rw [hof]
      simp only [Bool.false_eq_true, if_false]
      rw [hlook1 n, hlc]

/-- Witness for sync idempotence: the concrete prepared destination applies
successfully to an absent directory, and reapplying to the result reproduces
the same contents. -/
theorem sync_idempotent_witness :
    ∃ d2, PreparedDestination.apply fs9 pd9 (some [("nx", [5])]) = some d2 ∧
      ∀ n, fsLookup d2 n = fsLookup [("nx", [5])] n :=
  sync_idempotent fs9 pd9 none [("nx", [5])] (by decide)

/-- Specification of the eviction loop of `drop_stale`: over a duplicate-free
list of keys, each bound in the map under its own name and each with its blob
present, the loop succeeds, appends one reference per key in order, removes
exactly those keys from the map, and deletes exactly those keys' blobs. -/
theorem removeStaleKeys_spec :
    ∀ (ks : List String) (l : Loader) (fs : FS) (acc : List Reference),
    (∀ k ∈ ks, ∃ e, lookupEntry l.entries k = some e ∧ e.key = k) →
    (∀ k ∈ ks, (fsLookup fs (l.path_for k)).isSome) →
    ks.Nodup →
    ∃ l2 fs2 refs,
      removeStaleKeys l fs acc ks = some (l2, fs2, acc.reverse ++ refs) ∧
      refs = ks.map (fun k =>
        { path := l.path_for k,
          name := ((lookupEntry l.entries k).map (fun e => e.file_name)).getD "",
          changed := false : Reference }) ∧
      l2.root = l.root ∧ l2.used_entries = l.used_entries ∧
      l2.entries = l.entries.filter (fun p => !(ks.contains p.1)) ∧
      (∀ q, fsLookup fs2 q =
        if ks.any (fun k => l.path_for k == q) then none else fsLookup fs q) := by
  intro ks
  induction ks with
  | nil =>
    intro l fs acc _ _ _
    exact ⟨l, fs, [], by simp [removeStaleKeys], rfl, rfl, rfl, by simp,
      fun q => by simp⟩
  | cons k ks ih =>
    intro l fs acc hk hb hnd
    obtain ⟨e, hlk, hek⟩ := hk k (List.mem_cons_self k ks)
    have hknotin : k ∉ ks := (List.nodup_cons.mp hnd).1
    obtain ⟨bk, hbk⟩ :=
      Option.isSome_iff_exists.mp (hb k (List.mem_cons_self k ks))
    have hstep : removeStaleKeys l fs acc (k :: ks) =
        removeStaleKeys { l with entries := eraseEntry l.entries k }
          (fsRemove fs (l.path_for k))
          ({ path := l.path_for k, name := e.file_name, changed := false } :: acc)
          ks := by
      have hbk2 : fsLookup fs (l.root ++ "/" ++ k) = some bk := hbk
      simp [removeStaleKeys, hlk, Loader.reference_for, Loader.path_for, hek, hbk2]
    have hk2 : ∀ k2 ∈ ks,
        ∃ e2, lookupEntry (eraseEntry l.entries k) k2 = some e2 ∧ e2.key = k2 := by
      intro k2 hmem
      have hne : k2 ≠ k := fun h => hknotin (h ▸ hmem)
      obtain ⟨e2, h1, h2⟩ := hk k2 (List.mem_cons_of_mem k hmem)
      exact ⟨e2, (lookupEntry_eraseEntry_ne l.entries k k2 hne).trans h1, h2⟩
    have hb2 : ∀ k2 ∈ ks,
        (fsLookup (fsRemove fs (l.path_for k)) (l.path_for k2)).isSome := by
      intro k2 hmem
      have hne : ¬(l.path_for k = l.path_for k2) := fun h =>
        hknotin (path_for_inj l k k2 h ▸ hmem)
      rw [fsLookup_fsRemove, if_neg hne]
      exact hb k2 (List.mem_cons_of_mem k hmem)
    obtain ⟨l3, fs3, refs, heq, hrefs, hroot3, hused3, hents3, hfs3⟩ :=
      ih { l with entries := eraseEntry l.entries k }
        (fsRemove fs (l.path_for k))
        ({ path := l.path_for k, name := e.file_name, changed := false } :: acc)
        hk2 hb2 (List.nodup_cons.mp hnd).2
    refine ⟨l3, fs3,
      { path := l.path_for k, name := e.file_name, changed := false } :: refs,
      ?_, ?_, hroot3, hused3, ?_, ?_⟩
    · rw [hstep, heq]
      simp [List.reverse_cons, List.append_assoc]
    · rw [List.map_cons, hlk]
      refine congrArg₂ _ rfl ?_
      rw [hrefs]
      refine List.map_congr_left (fun k2 hmem => ?_)
      have hne : k2 ≠ k := fun h => hknotin (h ▸ hmem)
      rw [lookupEntry_eraseEntry_ne l.entries k k2 hne]
      rfl
    · rw [hents3]
      show (l.entries.filter (fun p => !(p.1 == k))).filter
          (fun p => !(ks.contains p.1)) = _
      rw [List.filter_filter]
      refine List.filter_congr (fun p _ => ?_)
      by_cases h1 : p.1 = k <;> by_cases h2 : p.1 ∈ ks <;>
        simp [h1, h2, List.contains_cons]
    · intro q
      rw [hfs3 q]
      show (if ks.any (fun k2 => l.path_for k2 == q) then none
        else fsLookup (fsRemove fs (l.path_for k)) q) = _
      rw [fsLookup_fsRemove, List.any_cons]
      by_cases h1 : l.path_for k = q <;>
        by_cases h2 : ks.any (fun k2 => l.path_for k2 == q) = true <;>
          simp [h1, h2]

/-- C4: `drop_stale()` returns exactly one `Reference` per entry whose key was
never looked up this run — in map order, each built from that entry — while
removing exactly those entries from the in-memory map (everything else kept)
and deleting exactly those keys' blob files; and concretely, on a store opened
over persisted keys `{a, b, c}` where the run called only `entry("a")` and
`entry("b")`, it returns exactly the reference for `c`, deletes `c`'s blob,
and the subsequent `close()` persists an index containing only `a` and `b`. -/
theorem drop_stale_spec :
    (∀ (l : Loader) (fs : FS),
      (∀ p ∈ l.entries, p.1 = p.2.key) →
      (l.entries.map (fun p => p.1)).Nodup →
      (∀ p ∈ l.entries, l.used_entries.contains p.1 = false →
        (fsLookup fs (l.path_for p.1)).isSome) →
      ∃ l2 fs2,
        Loader.drop_stale l fs = some (l2, fs2,
          (l.entries.filter (fun p => !(l.used_entries.contains p.2.key))).map
            (fun p => { path := l.path_for p.2.key, name := p.2.file_name,
                        changed := false })) ∧
        l2.entries = l.entries.filter (fun p => l.used_entries.contains p.2.key) ∧
        l2.root = l.root ∧ l2.used_entries = l.used_entries ∧
        (∀ p ∈ l.entries, l.used_entries.contains p.1 = false →
          fsLookup fs2 (l.path_for p.1) = none) ∧
        (∀ q, (∀ p ∈ l.entries, l.used_entries.contains p.1 = false →
            q ≠ l.path_for p.1) → fsLookup fs2 q = fsLookup fs q)) ∧
    (∃ l2 fs2,
      Loader.drop_stale abLoader abcFS =
        some (l2, fs2, [{ path := "root/c", name := "fc", changed := false }]) ∧
      (Loader.close l2 (some [entryA, entryB, entryC]) true).1 =
        some [entryA, entryB] ∧
      fsLookup fs2 "root/c" = none ∧
      fsLookup fs2 "root/a" = some [1] ∧ fsLookup fs2 "root/b" = some [2]) := by
  constructor
  · intro l fs hwf hnd hblob
    set KS : List String := (l.entries.filter
      (fun p => !(l.used_entries.contains p.2.key))).map (fun p => p.1) with hKS
    have hSkeys :
        ((l.entries.map (fun p => p.2)).filter
          (fun e => !(l.used_entries.contains e.key))).map (fun e => e.key) = KS := by
      rw [hKS, filter_map_comm, List.map_map]
      exact List.map_congr_left
        (fun p hp => (hwf p (List.mem_of_mem_filter hp)).symm)
    have hstale : ∀ p ∈ l.entries, l.used_entries.contains p.2.key =
        l.used_entries.contains p.1 := by
      intro p hp
      rw [hwf p hp]
    have hmemks : ∀ p ∈ l.entries,
        (p.1 ∈ KS ↔ l.used_entries.contains p.1 = false) := by
      intro p hp
      constructor
      · intro hin
        obtain ⟨p2, hp2S, hp21⟩ := List.mem_map.mp hin
        have hp2mem := List.mem_of_mem_filter hp2S
        have hp2stale := List.of_mem_filter hp2S
        have hlp2 := lookupEntry_of_mem l.entries hnd p2 hp2mem
        have hlp := lookupEntry_of_mem l.entries hnd p hp
        rw [hp21, hlp] at hlp2
        have hp2eq : p2 = p := Prod.ext hp21 (Option.some.inj hlp2).symm
        rw [hp2eq] at hp2stale
        rw [← hstale p hp]
        simpa using hp2stale
      · intro hfalse
        refine List.mem_map.mpr ⟨p, List.mem_filter.mpr ⟨hp, ?_⟩, rfl⟩
        rw [hstale p hp, hfalse]
        rfl
    have hkpre : ∀ k ∈ KS, ∃ e, lookupEntry l.entries k = some e ∧ e.key = k := by
      intro k hkmem
      obtain ⟨p, hpS, hp1⟩ := List.mem_map.mp hkmem
      have hpmem := List.mem_of_mem_filter hpS
      exact ⟨p.2, hp1 ▸ lookupEntry_of_mem l.entries hnd p hpmem,
        hp1 ▸ (hwf p hpmem).symm⟩
    have hbpre : ∀ k ∈ KS, (fsLookup fs (l.path_for k)).isSome := by
      intro k hkmem
      obtain ⟨p, hpS, hp1⟩ := List.mem_map.mp hkmem
      have hpmem := List.mem_of_mem_filter hpS
      have hpstale := List.of_mem_filter hpS
      refine hp1 ▸ hblob p hpmem ?_
      rw [hstale p hpmem] at hpstale
      simpa using hpstale
    have hndks : KS.Nodup :=
      hnd.sublist ((List.filter_sublist l.entries).map (fun p => p.1))
    obtain ⟨l2, fs2, refs, heq, hrefs, hroot, hused, hents, hfs⟩ :=
      removeStaleKeys_spec KS l fs [] hkpre hbpre hndks
    have hrefs2 : refs =
        (l.entries.filter (fun p => !(l.used_entries.contains p.2.key))).map
          (fun p => { path := l.path_for p.2.key, name := p.2.file_name,
                      changed := false : Reference }) := by
      rw [hrefs, hKS, List.map_map]
      refine List.map_congr_left (fun p hpS => ?_)
      have hpmem := List.mem_of_mem_filter hpS
      have hlp := lookupEntry_of_mem l.entries hnd p hpmem
      simp only [Function.comp]
      rw [hlp, hwf p hpmem]
      rfl
    refine ⟨l2, fs2, ?_, ?_, hroot, hused, ?_, ?_⟩
    · rw [Loader.drop_stale, hSkeys, heq, hrefs2]
      simp only [List.reverse_nil, List.nil_append]
    · rw [hents]
      refine List.filter_congr (fun p hp => ?_)
      cases hc : l.used_entries.contains p.1 with
      | false =>
        have hin : p.1 ∈ KS := (hmemks p hp).mpr hc
        have hcont : KS.contains p.1 = true := by simpa using hin
        rw [hstale p hp, hc, hcont]
        rfl
      | true =>
        have hnk : ¬(p.1 ∈ KS) := fun hin => by
          rw [(hmemks p hp).mp hin] at hc
          cases hc
        have hcont : KS.contains p.1 = false := by simpa using hnk
        rw [hstale p hp, hc, hcont]
        rfl
    · intro p hp hc
      rw [hfs (l.path_for p.1)]
      have hin : p.1 ∈ KS := (hmemks p hp).mpr hc
      have hany : (KS.any (fun k => l.path_for k == l.path_for p.1)) = true :=
        List.any_eq_true.mpr ⟨p.1, hin, by simp⟩
      rw [hany]
      rfl
    · intro q hq
      rw [hfs q]
      have hany : (KS.any (fun k => l.path_for k == q)) = false := by
        refine List.any_eq_false.mpr (fun k hkmem => ?_)
        obtain ⟨p, hpS, hp1⟩ := List.mem_map.mp hkmem
        have hpmem := List.mem_of_mem_filter hpS
        have hpstale := List.of_mem_filter hpS
        have hc : l.used_entries.contains p.1 = false := by
          rw [← hstale p hpmem]
          simpa using hpstale
        have hqp := hq p hpmem hc
        rw [hp1] at hqp
        intro hbeq
        have hqeq : l.path_for k = q := by simpa using hbeq
        exact hqp hqeq.symm
      rw [hany]
      rfl
  · exact ⟨abDropLoader, abDropFS, by decide⟩

/-- Witness for the eviction theorem: its general hypotheses hold at the
concrete `{a, b, c}` store with keys `a`, `b` touched, and the eviction result
is as described there. -/
theorem drop_stale_spec_witness :
    ∃ l2 fs2,
      Loader.drop_stale abLoader abcFS = some (l2, fs2,
        (abLoader.entries.filter
          (fun p => !(abLoader.used_entries.contains p.2.key))).map
          (fun p => { path := abLoader.path_for p.2.key, name := p.2.file_name,
                      changed := false })) ∧
      l2.entries = abLoader.entries.filter
        (fun p => abLoader.used_entries.contains p.2.key) ∧
      l2.root = abLoader.root ∧ l2.used_entries = abLoader.used_entries ∧
      (∀ p ∈ abLoader.entries, abLoader.used_entries.contains p.1 = false →
        fsLookup fs2 (abLoader.path_for p.1) = none) ∧
      (∀ q, (∀ p ∈ abLoader.entries, abLoader.used_entries.contains p.1 = false →
          q ≠ abLoader.path_for p.1) → fsLookup fs2 q = fsLookup abcFS q) :=
  drop_stale_spec.1 abLoader abcFS (by decide) (by decide) (by decide)
